import Mathlib

/-!
Verification of a per-key token-bucket rate limiter
(`rate-limiter/rate_limiter.py`): the `Capacity` scaled-token arithmetic
and the `RateLimiter.consume` refill-then-check-then-deduct protocol.

Embedding conventions:
* Python integers are unbounded, so they are modelled by `ℤ`.
* Python floor division `//` is `Int.fdiv`.
* `RateLimiter.consume` reads `time.monotonic_ns() // 1_000_000`; the
  clock reading is passed in as an explicit `current_time : ℤ` argument.
* The single floating-point expression of the source,
  `int(PRECISION_FACTOR * max_burst / fill_rpm)`, is embedded as exact
  floor division in `Capacity.clip_to_max_milliseconds`; a faithful
  binary64 model of that expression (`pyIntFloatDiv`) is developed
  further below, together with a proof that the two agree whenever
  `PRECISION_FACTOR * max_burst < 2 ^ 53`.
* `raise ValueError(msg)` in a constructor is modelled by
  `Except String`, returning `.error msg`.
-/

/-- Scale factor for simulating precise filling using integers
(`Capacity.PRECISION_FACTOR = 60_000`). -/
def PRECISION_FACTOR : ℤ := 60000

/-- State of `Capacity`: maximum burst, refill rate (requests per minute)
and the current token count scaled by `PRECISION_FACTOR`.  The lock is
not part of the arithmetic state. -/
structure Capacity where
  max_burst : ℤ
  fill_rpm : ℤ
  value_precise : ℤ
deriving DecidableEq, Repr

/-- The state built by the success path of `Capacity.__init__`:
`value_precise = max_burst * PRECISION_FACTOR` (bucket starts full). -/
def capacityInit (max_burst fill_rpm : ℤ) : Capacity :=
  ⟨max_burst, fill_rpm, max_burst * PRECISION_FACTOR⟩

/-- `Capacity.__init__`: rejects `fill_rpm < 0` and `max_burst <= 0`
(in that order) with `ValueError`, otherwise starts a full bucket. -/
def Capacity.make (max_burst fill_rpm : ℤ) : Except String Capacity :=
  if fill_rpm < 0 then .error ("Fill rate can not be negative!")
  else if max_burst ≤ 0 then .error ("Max burst must be a positive integer value")
  else .ok (capacityInit max_burst fill_rpm)

/-- `Capacity.value`: `value_precise // PRECISION_FACTOR`
(Python `//` is floor division, hence `Int.fdiv`). -/
def Capacity.value (c : Capacity) : ℤ :=
  c.value_precise.fdiv PRECISION_FACTOR

/-- `Capacity.is_available`: `value_precise >= PRECISION_FACTOR`. -/
def Capacity.is_available (c : Capacity) : Bool :=
  decide (PRECISION_FACTOR ≤ c.value_precise)

/-- `Capacity.deduct_one_request`:
`value_precise = max(value_precise - PRECISION_FACTOR, 0)`. -/
def Capacity.deduct_one_request (c : Capacity) : Capacity :=
  { c with value_precise := max (c.value_precise - PRECISION_FACTOR) 0 }

/-- `Capacity._clip_to_max_milliseconds`.  The source computes
`max_fill_time = int(self.PRECISION_FACTOR * self.max_burst / self.fill_rpm)`
with binary64 float division; on the validated states reached by this
program (`max_burst > 0`, `fill_rpm > 0` on this branch) the quotient is
positive, so `int` truncation is the floor, embedded here as `Int.fdiv`.
The binary64-vs-exact-floor fidelity boundary is settled below with
`pyIntFloatDiv`: the two agree exactly when
`PRECISION_FACTOR * max_burst < 2 ^ 53`. -/
def Capacity.clip_to_max_milliseconds (c : Capacity) (milliseconds : ℤ) : ℤ :=
  if c.fill_rpm = 0 then milliseconds
  else min milliseconds ((PRECISION_FACTOR * c.max_burst).fdiv c.fill_rpm)

/-- `Capacity._clip_value_to_max`: clamp `value_precise` down to
`max_burst * PRECISION_FACTOR` if it exceeds it. -/
def Capacity.clip_value_to_max (c : Capacity) : Capacity :=
  if c.value_precise > c.max_burst * PRECISION_FACTOR
  then { c with value_precise := c.max_burst * PRECISION_FACTOR }
  else c

/-- `Capacity.add_delay`: clip the elapsed milliseconds, add
`milliseconds * fill_rpm` to `value_precise`, then clip the value to the
maximum. -/
def Capacity.add_delay (c : Capacity) (milliseconds : ℤ) : Capacity :=
  let ms := c.clip_to_max_milliseconds milliseconds
  let added_tokens_precise : ℤ := ms * c.fill_rpm
  ({ c with value_precise := c.value_precise + added_tokens_precise }).clip_value_to_max

/-- Validated configuration, as established by the constructors. -/
def Capacity.ValidConfig (c : Capacity) : Prop :=
  0 < c.max_burst ∧ 0 ≤ c.fill_rpm

/-- The spec invariant `0 ≤ scaledValue ≤ maxBurst * PRECISION_FACTOR`. -/
def Capacity.Inv (c : Capacity) : Prop :=
  0 ≤ c.value_precise ∧ c.value_precise ≤ c.max_burst * PRECISION_FACTOR

instance (c : Capacity) : Decidable c.ValidConfig := by
  unfold Capacity.ValidConfig; infer_instance

instance (c : Capacity) : Decidable c.Inv := by
  unfold Capacity.Inv; infer_instance

/-- State of `RateLimiter`: key, configuration, the optional last
request timestamp (`_last_request_time: int | None = None`) and the
owned `Capacity`. -/
structure RateLimiter where
  pk : String
  fill_rpm : ℤ
  max_burst : ℤ
  last_request_time_opt : Option ℤ
  capacity : Capacity
deriving DecidableEq, Repr

/-- The characters Python's `str.strip()` strips: exactly the
codepoints for which CPython's `str.isspace()` holds (ASCII
whitespace and separators `09`–`0d`, `1c`–`1f`, `20`, NEL `85`,
NBSP `a0`, Ogham space `1680`, the `2000`–`200a` spaces, line/paragraph
separators `2028`/`2029`, `202f`, `205f` and ideographic space
`3000`). -/
def pyIsSpace (c : Char) : Bool :=
  (0x09 ≤ c.toNat && c.toNat ≤ 0x0d) || c.toNat = 0x20 ||
  (0x1c ≤ c.toNat && c.toNat ≤ 0x1f) || c.toNat = 0x85 || c.toNat = 0xa0 ||
  c.toNat = 0x1680 || (0x2000 ≤ c.toNat && c.toNat ≤ 0x200a) ||
  c.toNat = 0x2028 || c.toNat = 0x2029 || c.toNat = 0x202f ||
  c.toNat = 0x205f || c.toNat = 0x3000

/-- Models `not pk.strip()` for the string case: every character is
Python whitespace (true in particular for the empty string). -/
def isBlankString (s : String) : Bool :=
  s.data.all pyIsSpace

/-- The state built by the success path of `RateLimiter.__init__`:
no request recorded yet, a full owned `Capacity` with the same
configuration. -/
def limiterInit (pk : String) (fill_rpm max_burst : ℤ) : RateLimiter :=
  ⟨pk, fill_rpm, max_burst, none, capacityInit max_burst fill_rpm⟩

/-- `RateLimiter.__init__`: rejects a blank key, then `fill_rpm < 0`,
then `max_burst <= 0` (in source order) with `ValueError`.  The source
also rejects a non-string `pk`; the embedding is typed, so `pk` is
always a string. -/
def RateLimiter.make (pk : String) (fill_rpm max_burst : ℤ) : Except String RateLimiter :=
  if isBlankString pk then .error ("The request source id should be a non-empty string.")
  else if fill_rpm < 0 then .error ("Fill rate can not be negative!")
  else if max_burst ≤ 0 then .error ("Max burst must be a positive integer value")
  else .ok (limiterInit pk fill_rpm max_burst)

/-- The `last_request_time` property: the recorded timestamp, or `0`
when unset (`self._last_request_time or 0`). -/
def RateLimiter.last_request_time (l : RateLimiter) : ℤ :=
  l.last_request_time_opt.getD 0

/-- `RateLimiter.get_elapsed_time_from_last_request`. -/
def RateLimiter.get_elapsed_time_from_last_request (l : RateLimiter) (current_time : ℤ) : ℤ :=
  current_time - l.last_request_time

/-- `RateLimiter.consume`, with the clock reading
`current_time = time.monotonic_ns() // 1_000_000` passed explicitly:
refill for the elapsed time, then deny if unavailable (leaving
`last_request_time` untouched), else deduct one token and record the
timestamp.  Returns the boolean result with the post-state. -/
def RateLimiter.consume (l : RateLimiter) (current_time : ℤ) : Bool × RateLimiter :=
  let elapsed_ms := l.get_elapsed_time_from_last_request current_time
  let cap := l.capacity.add_delay elapsed_ms
  if !cap.is_available then
    (false, { l with capacity := cap })
  else
    (true, { l with capacity := cap.deduct_one_request,
                    last_request_time_opt := some current_time })

/-- Run `consume` once per clock reading in `ts`, threading the state;
returns the list of results with the final state. -/
def consumeSchedule (l : RateLimiter) (ts : List ℤ) : List Bool × RateLimiter :=
  match ts with
  | [] => ([], l)
  | t :: rest =>
    ((l.consume t).1 :: (consumeSchedule (l.consume t).2 rest).1,
     (consumeSchedule (l.consume t).2 rest).2)

/-- `n` `consume` calls at one fixed clock reading `t`. -/
def consumeRepeat (l : RateLimiter) (t : ℤ) (n : ℕ) : List Bool × RateLimiter :=
  consumeSchedule l (List.replicate n t)

/-! ### Basic characterizations of the `Capacity` operations -/

theorem Capacity.clip_value_to_max_spec (c : Capacity) :
    c.clip_value_to_max
      = ⟨c.max_burst, c.fill_rpm, min c.value_precise (c.max_burst * PRECISION_FACTOR)⟩ := by
  unfold Capacity.clip_value_to_max
  by_cases h : c.value_precise > c.max_burst * PRECISION_FACTOR
  · simp [h, min_eq_right h.le]
  · simp [h, min_eq_left (not_lt.mp h)]

theorem Capacity.add_delay_spec (c : Capacity) (ms : ℤ) :
    c.add_delay ms
      = ⟨c.max_burst, c.fill_rpm,
          min (c.value_precise + c.clip_to_max_milliseconds ms * c.fill_rpm)
            (c.max_burst * PRECISION_FACTOR)⟩ := by
  unfold Capacity.add_delay
  rw [Capacity.clip_value_to_max_spec]

theorem Capacity.deduct_one_request_spec (c : Capacity) :
    c.deduct_one_request
      = ⟨c.max_burst, c.fill_rpm, max (c.value_precise - PRECISION_FACTOR) 0⟩ := rfl

theorem Capacity.is_available_iff (c : Capacity) :
    c.is_available = true ↔ PRECISION_FACTOR ≤ c.value_precise := by
  simp [Capacity.is_available]

/-- With a valid configuration, the clipped elapsed time of a
nonnegative argument is nonnegative. -/
theorem Capacity.clip_to_max_nonneg {c : Capacity} (hV : c.ValidConfig) {ms : ℤ}
    (hms : 0 ≤ ms) : 0 ≤ c.clip_to_max_milliseconds ms := by
  unfold Capacity.clip_to_max_milliseconds
  split
  · exact hms
  · exact le_min hms (Int.fdiv_nonneg
      (mul_nonneg (by norm_num [PRECISION_FACTOR]) hV.1.le) hV.2)

/-- The full-refill time multiplied back by the rate never exceeds a full
bucket: `((PF * mb) // fr) * fr ≤ PF * mb`. -/
theorem Capacity.max_fill_time_mul_le {mb fr : ℤ} (hfr : 0 < fr) :
    (PRECISION_FACTOR * mb).fdiv fr * fr ≤ PRECISION_FACTOR * mb := by
  rw [Int.fdiv_eq_ediv _ hfr.le]
  exact Int.ediv_mul_le _ hfr.ne'

/-! ### Invariant preservation -/

theorem Capacity.inv_capacityInit {mb fr : ℤ} (hmb : 0 < mb) :
    (capacityInit mb fr).Inv :=
  ⟨mul_nonneg hmb.le (by norm_num [PRECISION_FACTOR]), le_refl _⟩

theorem Capacity.inv_add_delay {c : Capacity} (hV : c.ValidConfig) (hI : c.Inv)
    {ms : ℤ} (hms : 0 ≤ ms) : (c.add_delay ms).Inv := by
  rw [Capacity.add_delay_spec]
  refine ⟨le_min ?_ ?_, min_le_right _ _⟩
  · exact add_nonneg hI.1 (mul_nonneg (Capacity.clip_to_max_nonneg hV hms) hV.2)
  · exact mul_nonneg hV.1.le (by norm_num [PRECISION_FACTOR])

theorem Capacity.inv_deduct {c : Capacity} (hV : c.ValidConfig) (hI : c.Inv) :
    c.deduct_one_request.Inv := by
  have hPF : (0:ℤ) < PRECISION_FACTOR := by norm_num [PRECISION_FACTOR]
  rw [Capacity.deduct_one_request_spec]
  constructor
  · exact le_max_right _ _
  · exact max_le (by linarith [hI.2]) (mul_nonneg hV.1.le hPF.le)

theorem Capacity.value_bounds {c : Capacity} (hV : c.ValidConfig) (hI : c.Inv) :
    0 ≤ c.value ∧ c.value ≤ c.max_burst := by
  unfold Capacity.value
  constructor
  · exact Int.fdiv_nonneg hI.1 (by norm_num [PRECISION_FACTOR])
  · rw [Int.fdiv_eq_ediv _ (by norm_num [PRECISION_FACTOR])]
    calc c.value_precise / PRECISION_FACTOR
        ≤ c.max_burst * PRECISION_FACTOR / PRECISION_FACTOR :=
          Int.ediv_le_ediv (by norm_num [PRECISION_FACTOR]) hI.2
      _ = c.max_burst := Int.mul_ediv_cancel _ (by norm_num [PRECISION_FACTOR])

/-! ### Claim theorems: clock regression, invariant, availability -/

/-- C1: claimed `add_delay` contributes zero refill for a negative
milliseconds argument and never lowers `value_precise`.  The code does
the opposite: `_clip_to_max_milliseconds` leaves a negative delta
untouched (`min(ms, max_fill_time)` keeps `ms` when negative, and the
`fill_rpm == 0` branch returns `ms` unchanged), so a full bucket with
`max_burst = 1`, `fill_rpm = 60` given `-30000` ms receives refill
`-30000 * 60 = -1800000` and drops from `60000` to `-1740000`. -/
theorem C1_negative_elapsed_drains_tokens :
    ((capacityInit 1 60).add_delay (-30000)).value_precise
        = (capacityInit 1 60).value_precise + (-30000) * 60 ∧
      ((capacityInit 1 60).add_delay (-30000)).value_precise
        < (capacityInit 1 60).value_precise := by decide

/-- C2 (counterexample): the invariant `0 ≤ value_precise ≤
max_burst * PRECISION_FACTOR` is *not* preserved by `add_delay` at an
arbitrary integer milliseconds argument: the freshly constructed
`Capacity(max_burst=1, fill_rpm=60)` satisfies it, but after
`add_delay(-30000)` the scaled value is `-1740000 < 0`. -/
theorem C2_invariant_counterexample :
    (capacityInit 1 60).Inv ∧ ¬ ((capacityInit 1 60).add_delay (-30000)).Inv := by decide

/-- C2 (amended): for a validly configured `Capacity`
(`max_burst > 0`, `fill_rpm ≥ 0`), the invariant
`0 ≤ value_precise ≤ max_burst * PRECISION_FACTOR` holds after
construction and is preserved by `add_delay` for every *nonnegative*
milliseconds argument and by `deduct_one_request`; under the invariant,
`value` (currentTokens) lies in `[0, max_burst]`. -/
theorem C2_invariant_preserved :
    (∀ mb fr : ℤ, 0 < mb → (capacityInit mb fr).Inv) ∧
    (∀ c : Capacity, c.ValidConfig → c.Inv →
      (∀ ms : ℤ, 0 ≤ ms → (c.add_delay ms).Inv) ∧
      c.deduct_one_request.Inv ∧
      0 ≤ c.value ∧ c.value ≤ c.max_burst) := by
  refine ⟨fun mb fr hmb => Capacity.inv_capacityInit hmb, fun c hV hI => ?_⟩
  exact ⟨fun ms hms => Capacity.inv_add_delay hV hI hms,
    Capacity.inv_deduct hV hI,
    (Capacity.value_bounds hV hI).1, (Capacity.value_bounds hV hI).2⟩

/-- C2 (witness): the amended invariant theorem applied at
`max_burst = 5`, `fill_rpm = 60`, a half-full state and 1234 elapsed
milliseconds. -/
theorem C2_invariant_witness :
    ((⟨5, 60, 120000⟩ : Capacity).ValidConfig ∧ (⟨5, 60, 120000⟩ : Capacity).Inv ∧
      (0:ℤ) ≤ 1234) ∧
    ((⟨5, 60, 120000⟩ : Capacity).add_delay 1234).Inv ∧
    (⟨5, 60, 120000⟩ : Capacity).deduct_one_request.Inv ∧
    0 ≤ (⟨5, 60, 120000⟩ : Capacity).value ∧
    (⟨5, 60, 120000⟩ : Capacity).value ≤ (⟨5, 60, 120000⟩ : Capacity).max_burst := by
  refine ⟨⟨by decide, by decide, by decide⟩, ?_⟩
  have h := C2_invariant_preserved.2 (⟨5, 60, 120000⟩ : Capacity) (by decide) (by decide)
  exact ⟨h.1 1234 (by decide), h.2.1, h.2.2.1, h.2.2.2⟩

/-- C9: `is_available` returns true exactly when at least one whole
token is present (`value_precise ≥ PRECISION_FACTOR`), and in
particular it is not the weaker positivity test: any state with
`0 < value_precise < PRECISION_FACTOR` is reported unavailable. -/
theorem C9_is_available_whole_token (c : Capacity) :
    (c.is_available = true ↔ PRECISION_FACTOR ≤ c.value_precise) ∧
    (0 < c.value_precise → c.value_precise < PRECISION_FACTOR → c.is_available = false) := by
  constructor
  · exact Capacity.is_available_iff c
  · intro _ hlt
    simp [Capacity.is_available, not_le.mpr hlt]

/-- C9 (witness): a state holding a strictly positive sub-token residue
(`value_precise = 30000`) is unavailable. -/
theorem C9_is_available_witness :
    (0:ℤ) < 30000 ∧ (30000:ℤ) < PRECISION_FACTOR ∧
    (⟨1, 60, 30000⟩ : Capacity).is_available = false := by
  refine ⟨by decide, by decide, ?_⟩
  exact (C9_is_available_whole_token (⟨1, 60, 30000⟩ : Capacity)).2 (by decide) (by decide)

/-! ### Constructor characterizations -/

theorem Capacity.capacity_make_ok_iff (mb fr : ℤ) (c : Capacity) :
    Capacity.make mb fr = .ok c ↔ 0 ≤ fr ∧ 0 < mb ∧ c = capacityInit mb fr := by
  unfold Capacity.make
  split_ifs with h1 h2
  · simp only [reduceCtorEq, false_iff]
    rintro ⟨h, -, -⟩
    omega
  · simp only [reduceCtorEq, false_iff]
    rintro ⟨-, h, -⟩
    omega
  · simp only [Except.ok.injEq]
    constructor
    · intro h
      exact ⟨not_lt.mp h1, not_le.mp h2, h.symm⟩
    · rintro ⟨-, -, rfl⟩
      rfl

theorem RateLimiter.limiter_make_ok_iff (pk : String) (fr mb : ℤ) (l : RateLimiter) :
    RateLimiter.make pk fr mb = .ok l ↔
      isBlankString pk = false ∧ 0 ≤ fr ∧ 0 < mb ∧ l = limiterInit pk fr mb := by
  unfold RateLimiter.make
  split_ifs with h0 h1 h2
  · simp only [reduceCtorEq, false_iff]
    rintro ⟨h, -, -, -⟩
    simp [h0] at h
  · simp only [reduceCtorEq, false_iff]
    rintro ⟨-, h, -, -⟩
    omega
  · simp only [reduceCtorEq, false_iff]
    rintro ⟨-, -, h, -⟩
    omega
  · simp only [Except.ok.injEq]
    constructor
    · intro h
      exact ⟨Bool.not_eq_true _ ▸ Bool.of_not_eq_true h0, not_lt.mp h1, not_le.mp h2, h.symm⟩
    · rintro ⟨-, -, -, rfl⟩
      rfl

/-- C8: construction fails exactly on an invalid configuration.
`Capacity.make` succeeds iff `fill_rpm ≥ 0` and `max_burst > 0`;
`RateLimiter.make` succeeds iff additionally the key is not blank; on
success the bucket starts full (`value_precise = max_burst *
PRECISION_FACTOR`), satisfies the invariant, no request is recorded,
and no object is produced in an invalid state. -/
theorem C8_construction_validation (pk : String) (fr mb : ℤ) :
    (∀ c : Capacity, Capacity.make mb fr = .ok c ↔
      0 ≤ fr ∧ 0 < mb ∧ c = capacityInit mb fr) ∧
    (∀ l : RateLimiter, RateLimiter.make pk fr mb = .ok l ↔
      isBlankString pk = false ∧ 0 ≤ fr ∧ 0 < mb ∧ l = limiterInit pk fr mb) ∧
    (∀ c : Capacity, Capacity.make mb fr = .ok c →
      c.value_precise = mb * PRECISION_FACTOR ∧ c.ValidConfig ∧ c.Inv) ∧
    (∀ l : RateLimiter, RateLimiter.make pk fr mb = .ok l →
      l.capacity.value_precise = mb * PRECISION_FACTOR ∧ l.capacity.ValidConfig ∧
      l.capacity.Inv ∧ l.last_request_time = 0) := by
  refine ⟨Capacity.capacity_make_ok_iff mb fr, RateLimiter.limiter_make_ok_iff pk fr mb, ?_, ?_⟩
  · intro c hc
    obtain ⟨h1, h2, rfl⟩ := (Capacity.capacity_make_ok_iff mb fr c).mp hc
    exact ⟨rfl, ⟨h2, h1⟩, Capacity.inv_capacityInit h2⟩
  · intro l hl
    obtain ⟨-, h1, h2, rfl⟩ := (RateLimiter.limiter_make_ok_iff pk fr mb l).mp hl
    exact ⟨rfl, ⟨h2, h1⟩, Capacity.inv_capacityInit h2, rfl⟩

/-- C8 (witness): at key `"user1"`, `fill_rpm = 60`, `max_burst = 5`
the constructors succeed with a full bucket; at `max_burst = -1`, or at
the whitespace-only key consisting of one form feed (`"\x0c"`), the
limiter constructor cannot succeed. -/
theorem C8_construction_witness :
    Capacity.make 5 60 = .ok (capacityInit 5 60) ∧
    RateLimiter.make "user1" 60 5 = .ok (limiterInit "user1" 60 5) ∧
    ¬ (RateLimiter.make "user1" 60 (-1) = .ok (limiterInit "user1" 60 (-1))) ∧
    ∀ l : RateLimiter, ¬ (RateLimiter.make (String.mk [Char.ofNat 0x0c]) 60 5 = .ok l) := by
  refine ⟨?_, ?_, ?_, ?_⟩
  · exact ((C8_construction_validation "user1" 60 5).1 _).mpr ⟨by decide, by decide, rfl⟩
  · exact ((C8_construction_validation "user1" 60 5).2.1 _).mpr
      ⟨by decide, by decide, by decide, rfl⟩
  · intro h
    have := ((C8_construction_validation "user1" 60 (-1)).2.1 _).mp h
    omega
  · intro l h
    have hc := ((C8_construction_validation (String.mk [Char.ofNat 0x0c]) 60 5).2.1 l).mp h
    have hblank : isBlankString (String.mk [Char.ofNat 0x0c]) = true := by decide
    rw [hblank] at hc
    exact absurd hc.1 (by decide)

/-! ### The consume protocol, step by step -/

theorem consumeSchedule_nil (l : RateLimiter) : consumeSchedule l [] = ([], l) := rfl

theorem consumeSchedule_cons (l : RateLimiter) (t : ℤ) (ts : List ℤ) :
    consumeSchedule l (t :: ts)
      = ((l.consume t).1 :: (consumeSchedule (l.consume t).2 ts).1,
         (consumeSchedule (l.consume t).2 ts).2) := rfl

/-- `consume` reduced to one availability test on the refilled bucket. -/
theorem RateLimiter.consume_spec (l : RateLimiter) (t : ℤ) :
    l.consume t =
      if PRECISION_FACTOR ≤ (l.capacity.add_delay (t - l.last_request_time)).value_precise then
        (true, { l with
          capacity := (l.capacity.add_delay (t - l.last_request_time)).deduct_one_request,
          last_request_time_opt := some t })
      else (false, { l with capacity := l.capacity.add_delay (t - l.last_request_time) }) := by
  unfold RateLimiter.consume RateLimiter.get_elapsed_time_from_last_request
  by_cases h : PRECISION_FACTOR ≤ (l.capacity.add_delay (t - l.last_request_time)).value_precise
  · simp [Capacity.is_available, h]
  · simp [Capacity.is_available, h]

/-- Refilling for zero elapsed time leaves a within-bounds bucket
unchanged. -/
theorem Capacity.add_delay_zero {c : Capacity} (hV : c.ValidConfig)
    (h : c.value_precise ≤ c.max_burst * PRECISION_FACTOR) : c.add_delay 0 = c := by
  rw [Capacity.add_delay_spec]
  have hclip : c.clip_to_max_milliseconds 0 * c.fill_rpm = 0 := by
    unfold Capacity.clip_to_max_milliseconds
    split
    · exact zero_mul _
    · rw [min_eq_left (Int.fdiv_nonneg
        (mul_nonneg (by norm_num [PRECISION_FACTOR]) hV.1.le) hV.2), zero_mul]
  rw [hclip, add_zero, min_eq_left h]

/-- A limiter whose last recorded request time is `t` and whose bucket
holds `m` whole tokens (scaled exactly), observed again at clock `t`. -/
def steadyState (pk : String) (fr mb t : ℤ) (m : ℕ) : RateLimiter :=
  ⟨pk, fr, mb, some t, ⟨mb, fr, (m : ℤ) * PRECISION_FACTOR⟩⟩

theorem steady_consume_succ (pk : String) (fr mb t : ℤ) (m : ℕ)
    (hmb : 0 < mb) (hfr : 0 ≤ fr) (hm : ((m : ℤ) + 1) ≤ mb) :
    (steadyState pk fr mb t (m + 1)).consume t = (true, steadyState pk fr mb t m) := by
  have hPF : (0:ℤ) < PRECISION_FACTOR := by norm_num [PRECISION_FACTOR]
  have hcap : (((m + 1 : ℕ) : ℤ) * PRECISION_FACTOR) ≤ mb * PRECISION_FACTOR := by
    push_cast
    exact mul_le_mul_of_nonneg_right (by push_cast; linarith) hPF.le
  have hVC : (steadyState pk fr mb t (m + 1)).capacity.ValidConfig := ⟨hmb, hfr⟩
  have helapsed : t - (steadyState pk fr mb t (m + 1)).last_request_time = 0 := by
    simp [steadyState, RateLimiter.last_request_time]
  rw [RateLimiter.consume_spec, helapsed, Capacity.add_delay_zero hVC hcap]
  have havail : PRECISION_FACTOR ≤ (steadyState pk fr mb t (m + 1)).capacity.value_precise := by
    show PRECISION_FACTOR ≤ ((m + 1 : ℕ) : ℤ) * PRECISION_FACTOR
    push_cast
    nlinarith [Int.natCast_nonneg m]
  rw [if_pos havail]
  have hded : ((steadyState pk fr mb t (m + 1)).capacity).deduct_one_request
      = ⟨mb, fr, (m : ℤ) * PRECISION_FACTOR⟩ := by
    rw [Capacity.deduct_one_request_spec]
    show (⟨mb, fr, max (((m + 1 : ℕ) : ℤ) * PRECISION_FACTOR - PRECISION_FACTOR) 0⟩ : Capacity) = _
    have : ((m + 1 : ℕ) : ℤ) * PRECISION_FACTOR - PRECISION_FACTOR = (m : ℤ) * PRECISION_FACTOR := by
      push_cast
      ring
    rw [this, max_eq_left (mul_nonneg (Int.natCast_nonneg m) hPF.le)]
  rw [hded]
  rfl

theorem steady_consume_zero (pk : String) (fr mb t : ℤ)
    (hmb : 0 < mb) (hfr : 0 ≤ fr) :
    (steadyState pk fr mb t 0).consume t = (false, steadyState pk fr mb t 0) := by
  have hPF : (0:ℤ) < PRECISION_FACTOR := by norm_num [PRECISION_FACTOR]
  have hcap : (((0 : ℕ) : ℤ) * PRECISION_FACTOR) ≤ mb * PRECISION_FACTOR := by
    simp
    positivity
  have hVC : (steadyState pk fr mb t 0).capacity.ValidConfig := ⟨hmb, hfr⟩
  have helapsed : t - (steadyState pk fr mb t 0).last_request_time = 0 := by
    simp [steadyState, RateLimiter.last_request_time]
  rw [RateLimiter.consume_spec, helapsed, Capacity.add_delay_zero hVC hcap]
  have hnavail : ¬ PRECISION_FACTOR ≤ (steadyState pk fr mb t 0).capacity.value_precise := by
    show ¬ PRECISION_FACTOR ≤ ((0 : ℕ) : ℤ) * PRECISION_FACTOR
    simp [PRECISION_FACTOR]
  rw [if_neg hnavail]

theorem steady_repeat (pk : String) (fr mb t : ℤ) (hmb : 0 < mb) (hfr : 0 ≤ fr)
    (k : ℕ) : ∀ m : ℕ, (m : ℤ) ≤ mb →
    consumeRepeat (steadyState pk fr mb t m) t k
      = (List.replicate (min k m) true ++ List.replicate (k - min k m) false,
         steadyState pk fr mb t (m - k)) := by
  induction k with
  | zero => intro m hm; simp [consumeRepeat, consumeSchedule]
  | succ k ih =>
    intro m hm
    rw [consumeRepeat, List.replicate_succ, consumeSchedule_cons]
    cases m with
    | zero =>
      rw [steady_consume_zero pk fr mb t hmb hfr]
      have := ih 0 (by exact_mod_cast hmb.le.trans (le_refl mb))
      rw [consumeRepeat] at this
      simp only [this]
      simp [List.replicate_succ]
    | succ s =>
      have hs : (s : ℤ) ≤ mb := by push_cast at hm ⊢; linarith
      rw [steady_consume_succ pk fr mb t s hmb hfr (by exact_mod_cast hm)]
      have := ih s hs
      rw [consumeRepeat] at this
      simp only [this]
      refine Prod.ext ?_ ?_
      · show true :: (List.replicate (min k s) true ++ List.replicate (k - min k s) false)
            = List.replicate (min (k + 1) (s + 1)) true
              ++ List.replicate ((k + 1) - min (k + 1) (s + 1)) false
        rw [Nat.succ_min_succ, List.replicate_succ]
        simp [Nat.succ_sub_succ]
      · show steadyState pk fr mb t (s - k) = steadyState pk fr mb t (s + 1 - (k + 1))
        rw [Nat.succ_sub_succ]

/-- The first `consume` on a freshly constructed limiter at any
nonnegative clock reading: the bucket is full, so the refill is a
no-op (clipped at the maximum) and the call succeeds, leaving
`max_burst - 1` whole tokens and recording the timestamp. -/
theorem fresh_consume (pk : String) (fr : ℤ) (N : ℕ) (hN : 0 < N) (hfr : 0 ≤ fr)
    (t : ℤ) (ht : 0 ≤ t) :
    (limiterInit pk fr (N : ℤ)).consume t = (true, steadyState pk fr (N : ℤ) t (N - 1)) := by
  have hPF : (0:ℤ) < PRECISION_FACTOR := by norm_num [PRECISION_FACTOR]
  have hNZ : (0:ℤ) < (N : ℤ) := by exact_mod_cast hN
  have hVC : (capacityInit (N : ℤ) fr).ValidConfig := ⟨hNZ, hfr⟩
  have helapsed : t - (limiterInit pk fr (N : ℤ)).last_request_time = t := by
    simp [limiterInit, RateLimiter.last_request_time]
  have hfull : (capacityInit (N : ℤ) fr).add_delay t = capacityInit (N : ℤ) fr := by
    rw [Capacity.add_delay_spec]
    have hnn : 0 ≤ (capacityInit (N : ℤ) fr).clip_to_max_milliseconds t
        * (capacityInit (N : ℤ) fr).fill_rpm :=
      mul_nonneg (Capacity.clip_to_max_nonneg hVC ht) hfr
    show (⟨(N : ℤ), fr, min ((N : ℤ) * PRECISION_FACTOR + _) ((N : ℤ) * PRECISION_FACTOR)⟩ :
        Capacity) = capacityInit (N : ℤ) fr
    rw [min_eq_right (le_add_of_nonneg_right hnn)]
    rfl
  have hcap : (limiterInit pk fr (N : ℤ)).capacity = capacityInit (N : ℤ) fr := rfl
  rw [RateLimiter.consume_spec, helapsed, hcap, hfull]
  have havail : PRECISION_FACTOR ≤ (capacityInit (N : ℤ) fr).value_precise := by
    show PRECISION_FACTOR ≤ (N : ℤ) * PRECISION_FACTOR
    nlinarith
  rw [if_pos havail]
  have hded : (capacityInit (N : ℤ) fr).deduct_one_request
      = ⟨(N : ℤ), fr, ((N - 1 : ℕ) : ℤ) * PRECISION_FACTOR⟩ := by
    rw [Capacity.deduct_one_request_spec]
    have hcast : ((N - 1 : ℕ) : ℤ) = (N : ℤ) - 1 := by
      rw [Nat.cast_sub hN]
      simp
    have : (capacityInit (N : ℤ) fr).value_precise - PRECISION_FACTOR
        = ((N - 1 : ℕ) : ℤ) * PRECISION_FACTOR := by
      show (N : ℤ) * PRECISION_FACTOR - PRECISION_FACTOR = _
      rw [hcast]
      ring
    rw [this, max_eq_left (mul_nonneg (Int.natCast_nonneg _) hPF.le)]
    rfl
  rw [hded]
  rfl

/-- C3: a freshly constructed limiter with `max_burst = N` grants
exactly the first `N` `consume` calls when all `N + 1` calls observe
the same clock reading `t` as the first call; the `(N+1)`-th is
denied. -/
theorem C3_burst_ceiling (pk : String) (fr : ℤ) (hfr : 0 ≤ fr) (N : ℕ) (hN : 0 < N)
    (t : ℤ) (ht : 0 ≤ t) :
    (consumeRepeat (limiterInit pk fr (N : ℤ)) t (N + 1)).1
      = List.replicate N true ++ [false] := by
  have hNZ : (0:ℤ) < (N : ℤ) := by exact_mod_cast hN
  rw [consumeRepeat, List.replicate_succ, consumeSchedule_cons,
    fresh_consume pk fr N hN hfr t ht]
  have hrep := steady_repeat pk fr (N : ℤ) t hNZ hfr N (N - 1)
    (by exact_mod_cast Nat.sub_le N 1)
  rw [consumeRepeat] at hrep
  simp only [hrep]
  have hmin : min N (N - 1) = N - 1 := Nat.min_eq_right (Nat.sub_le N 1)
  have hsub : N - (N - 1) = 1 := by omega
  simp only [hmin, hsub]
  show true :: (List.replicate (N - 1) true ++ List.replicate 1 false)
      = List.replicate N true ++ [false]
  rw [← List.cons_append, ← List.replicate_succ]
  have : N - 1 + 1 = N := by omega
  rw [this]
  rfl

/-- C3 (witness): the spec scenario `maxBurst = 5`, `fillRate = 60`,
six calls with no time advance give `[T, T, T, T, T, F]`. -/
theorem C3_burst_ceiling_witness :
    (consumeRepeat (limiterInit "user2" 60 (5 : ℕ)) 0 6).1
      = List.replicate 5 true ++ [false] :=
  C3_burst_ceiling "user2" 60 (by decide) 5 (by decide) 0 (by decide)

/-- With `fill_rpm = 0`, a drained bucket denies a `consume` at *any*
clock reading (even one before the recorded time) and is left
unchanged. -/
theorem zero_rate_consume (pk : String) (mb t0 tx : ℤ) (hmb : 0 < mb) :
    (steadyState pk 0 mb t0 0).consume tx = (false, steadyState pk 0 mb t0 0) := by
  have hPF : (0:ℤ) < PRECISION_FACTOR := by norm_num [PRECISION_FACTOR]
  have h0 : min (0:ℤ) (mb * PRECISION_FACTOR) = 0 :=
    min_eq_left (mul_nonneg hmb.le hPF.le)
  have hcap : (steadyState pk 0 mb t0 0).capacity.add_delay
      (tx - (steadyState pk 0 mb t0 0).last_request_time)
      = (steadyState pk 0 mb t0 0).capacity := by
    simp only [steadyState]
    rw [Capacity.add_delay_spec]
    simp [h0]
  rw [RateLimiter.consume_spec, hcap]
  have hnavail : ¬ PRECISION_FACTOR ≤ (steadyState pk 0 mb t0 0).capacity.value_precise := by
    show ¬ PRECISION_FACTOR ≤ ((0 : ℕ) : ℤ) * PRECISION_FACTOR
    simp [PRECISION_FACTOR]
  rw [if_neg hnavail]

/-- With `fill_rpm = 0` and an empty bucket, every schedule of further
clock readings is denied wholesale and the state never changes. -/
theorem zero_rate_schedule (pk : String) (mb t0 : ℤ) (hmb : 0 < mb) (ts : List ℤ) :
    (consumeSchedule (steadyState pk 0 mb t0 0) ts).1 = List.replicate ts.length false ∧
    (consumeSchedule (steadyState pk 0 mb t0 0) ts).2 = steadyState pk 0 mb t0 0 := by
  induction ts with
  | nil => exact ⟨rfl, rfl⟩
  | cons t ts ih =>
    rw [consumeSchedule_cons, zero_rate_consume pk mb t0 t hmb]
    exact ⟨by rw [show ((false, steadyState pk 0 mb t0 0).1 :: _) = false ::
        (consumeSchedule (steadyState pk 0 mb t0 0) ts).1 from rfl, ih.1]; rfl, ih.2⟩

/-- C6: with `fill_rpm = 0` and `max_burst = N`, the first `N`
`consume` calls succeed, and from the resulting drained state every
later `consume` call is denied regardless of the clock readings. -/
theorem C6_zero_rate_terminal (pk : String) (N : ℕ) (hN : 0 < N) (t0 : ℤ) (ht0 : 0 ≤ t0) :
    (consumeRepeat (limiterInit pk 0 (N : ℤ)) t0 N).1 = List.replicate N true ∧
    ∀ ts : List ℤ, (consumeSchedule (consumeRepeat (limiterInit pk 0 (N : ℤ)) t0 N).2 ts).1
      = List.replicate ts.length false := by
  obtain ⟨M, rfl⟩ : ∃ M, N = M + 1 := ⟨N - 1, by omega⟩
  have hMZ : (0:ℤ) < ((M + 1 : ℕ) : ℤ) := by exact_mod_cast Nat.succ_pos M
  have hfresh := fresh_consume pk 0 (M + 1) (Nat.succ_pos M) (le_refl 0) t0 ht0
  have hrep := steady_repeat pk 0 ((M + 1 : ℕ) : ℤ) t0 hMZ (le_refl 0) M M
    (by exact_mod_cast Nat.le_succ M)
  rw [consumeRepeat] at hrep ⊢
  rw [List.replicate_succ, consumeSchedule_cons, hfresh]
  have hsimp : (M + 1) - 1 = M := rfl
  rw [hsimp] at *
  simp only [hrep, Nat.min_self, Nat.sub_self]
  constructor
  · show true :: (List.replicate M true ++ List.replicate 0 false) = List.replicate (M + 1) true
    simp [List.replicate_succ]
  · intro ts
    exact (zero_rate_schedule pk ((M + 1 : ℕ) : ℤ) t0 hMZ ts).1

/-- C6 (witness): `maxBurst = 1`, `fillRate = 0`: the first call is
granted and a call one hour later is denied. -/
theorem C6_zero_rate_terminal_witness :
    (consumeRepeat (limiterInit "user-weird" 0 ((1 : ℕ) : ℤ)) 0 1).1 = List.replicate 1 true ∧
    (consumeSchedule (consumeRepeat (limiterInit "user-weird" 0 ((1 : ℕ) : ℤ)) 0 1).2
      [3600000]).1 = List.replicate 1 false := by
  have h := C6_zero_rate_terminal "user-weird" 1 (by decide) 0 (by decide)
  exact ⟨h.1, h.2 [3600000]⟩

/-- C5: a denied `consume` still mutates the limiter: the refill for
the elapsed time is kept while `last_request_time` stays put, so the
next call measures elapsed time from the *same* origin and refill
accumulates faster than real time.  Concretely, with `maxBurst = 1`,
`fillRate = 60` (one token per `PRECISION_FACTOR / 60 = 1000` ms), the
schedule drain-at-0, denied-at-600, call-at-900 admits the third
request after only 900 ms of real time. -/
theorem C5_denied_call_mutates :
    (∀ (l : RateLimiter) (t : ℤ), (l.consume t).1 = false →
      (l.consume t).2
          = { l with capacity := l.capacity.add_delay (l.get_elapsed_time_from_last_request t) } ∧
        (l.consume t).2.last_request_time_opt = l.last_request_time_opt) ∧
    ((consumeSchedule (limiterInit "k" 60 1) [0, 600, 900]).1 = [true, false, true] ∧
      (900 : ℤ) - 0 < PRECISION_FACTOR.fdiv 60) := by
  constructor
  · intro l t h
    rw [RateLimiter.consume_spec] at h ⊢
    by_cases hc : PRECISION_FACTOR ≤ (l.capacity.add_delay (t - l.last_request_time)).value_precise
    · rw [if_pos hc] at h
      exact absurd h (by simp)
    · rw [if_neg hc]
      exact ⟨rfl, rfl⟩
  · exact ⟨by decide, by decide⟩

/-- C5 (witness): the drained limiter `⟨max_burst 1, fill 60, empty⟩`
denied at clock 600 keeps its refill and its old timestamp. -/
theorem C5_denied_call_mutates_witness :
    ((⟨"k", 60, 1, some 0, ⟨1, 60, 0⟩⟩ : RateLimiter).consume 600).1 = false ∧
    ((⟨"k", 60, 1, some 0, ⟨1, 60, 0⟩⟩ : RateLimiter).consume 600).2
      = { (⟨"k", 60, 1, some 0, ⟨1, 60, 0⟩⟩ : RateLimiter) with
          capacity := (⟨1, 60, 0⟩ : Capacity).add_delay
            ((⟨"k", 60, 1, some 0, ⟨1, 60, 0⟩⟩ :
              RateLimiter).get_elapsed_time_from_last_request 600) } ∧
    ((⟨"k", 60, 1, some 0, ⟨1, 60, 0⟩⟩ : RateLimiter).consume 600).2.last_request_time_opt
      = some 0 := by
  refine ⟨by decide, ?_, ?_⟩
  · exact (C5_denied_call_mutates.1 _ 600 (by decide)).1
  · exact (C5_denied_call_mutates.1 _ 600 (by decide)).2

/-- C4 (counterexample): refilling a drained bucket with
`maxBurst = 1`, `fillRate = 7` for `Δ = 10000` ms does *not* yield
`min(maxBurst, ⌊Δ·fillRate/PRECISION_FACTOR⌋) = 1` whole token: the
elapsed time is clipped to `⌊60000/7⌋ = 8571` ms first, giving
`8571 · 7 = 59997 < 60000` scaled units, i.e. zero whole tokens. -/
theorem C4_refill_counterexample :
    ((⟨1, 7, 0⟩ : Capacity).add_delay 10000).value
      ≠ min 1 (((10000 : ℤ) * 7).fdiv PRECISION_FACTOR) := by decide

/-- C4 (amended): for `PRECISION_FACTOR · maxBurst < 2 ^ 53` (the
range where the float-computed clamp equals exact floor division, see
the theorems on `pyIntFloatDiv`), refilling a drained bucket for
`Δ ≥ 0` ms at rate `fillRate > 0` yields exactly
`⌊min(Δ, Tfull) · fillRate / PRECISION_FACTOR⌋` whole tokens, where
`Tfull = ⌊PRECISION_FACTOR · maxBurst / fillRate⌋` is the clipped
full-refill time; for `Δ ≤ Tfull` this is the claimed linear amount
`⌊Δ · fillRate / PRECISION_FACTOR⌋`. -/
theorem C4_refill_amended (mb fr d : ℤ) (hmb : 0 < mb) (hfr : 0 < fr) (hd : 0 ≤ d)
    (hsize : PRECISION_FACTOR * mb < 2 ^ 53) :
    ((⟨mb, fr, 0⟩ : Capacity).add_delay d).value
        = (min d ((PRECISION_FACTOR * mb).fdiv fr) * fr).fdiv PRECISION_FACTOR ∧
      (d ≤ (PRECISION_FACTOR * mb).fdiv fr →
        ((⟨mb, fr, 0⟩ : Capacity).add_delay d).value = (d * fr).fdiv PRECISION_FACTOR) := by
  have hclip : (⟨mb, fr, 0⟩ : Capacity).clip_to_max_milliseconds d
      = min d ((PRECISION_FACTOR * mb).fdiv fr) := by
    unfold Capacity.clip_to_max_milliseconds
    rw [if_neg hfr.ne']
  have hle : min d ((PRECISION_FACTOR * mb).fdiv fr) * fr ≤ mb * PRECISION_FACTOR := by
    calc min d ((PRECISION_FACTOR * mb).fdiv fr) * fr
        ≤ ((PRECISION_FACTOR * mb).fdiv fr) * fr :=
          mul_le_mul_of_nonneg_right (min_le_right _ _) hfr.le
      _ ≤ PRECISION_FACTOR * mb := Capacity.max_fill_time_mul_le hfr
      _ = mb * PRECISION_FACTOR := mul_comm _ _
  have hmain : ((⟨mb, fr, 0⟩ : Capacity).add_delay d).value
      = (min d ((PRECISION_FACTOR * mb).fdiv fr) * fr).fdiv PRECISION_FACTOR := by
    rw [Capacity.add_delay_spec]
    show (min ((0:ℤ) + (⟨mb, fr, 0⟩ : Capacity).clip_to_max_milliseconds d * fr)
        (mb * PRECISION_FACTOR)).fdiv PRECISION_FACTOR = _
    rw [hclip, zero_add, min_eq_left hle]
  refine ⟨hmain, fun hdle => ?_⟩
  rw [hmain, min_eq_left hdle]

/-- C4 (witness): a drained `maxBurst = 1`, `fillRate = 60` bucket
refilled for 500 ms holds `⌊min(500, 1000)·60/60000⌋ = 0` whole
tokens. -/
theorem C4_refill_amended_witness :
    ((⟨1, 60, 0⟩ : Capacity).add_delay 500).value
        = (min 500 ((PRECISION_FACTOR * 1).fdiv 60) * 60).fdiv PRECISION_FACTOR ∧
      ((⟨1, 60, 0⟩ : Capacity).add_delay 500).value = ((500 : ℤ) * 60).fdiv PRECISION_FACTOR := by
  have h := C4_refill_amended 1 60 500 (by decide) (by decide) (by decide) (by decide)
  exact ⟨h.1, h.2 (by decide)⟩

/-! ### A model of the one floating-point expression of the source

`_clip_to_max_milliseconds` computes
`int(self.PRECISION_FACTOR * self.max_burst / self.fill_rpm)`.
CPython true division of two ints produces the correctly rounded
IEEE-754 binary64 value of the exact quotient (round to nearest, ties
to even).  The model below reproduces that rounding for every positive
quotient below the overflow threshold `2 ^ 1024` (where CPython would
instead raise `OverflowError`): a positive binary64 value is a multiple
of the grid `2 ^ (⌊log₂ x⌋ - 52)` for normal magnitudes and of
`2 ^ (-1074)` for subnormal ones, and division returns the nearest grid
point. -/

/-- Round a rational to the nearest integer, ties to the even
neighbour. -/
def roundHalfEven (y : ℚ) : ℤ :=
  if y - ⌊y⌋ < 1 / 2 then ⌊y⌋
  else if 1 / 2 < y - ⌊y⌋ then ⌊y⌋ + 1
  else if Even ⌊y⌋ then ⌊y⌋ else ⌊y⌋ + 1

/-- Exponent of the binary64 rounding grid at magnitude `x`:
`⌊log₂ x⌋ - 52` for normal magnitudes, floored at `-1074` in the
subnormal range. -/
def floatGridExp (x : ℚ) : ℤ :=
  max (Int.log 2 x - 52) (-1074)

/-- The correctly rounded binary64 value of a positive rational
(round to nearest, ties to even), as an exact rational. -/
def roundB64 (x : ℚ) : ℚ :=
  (roundHalfEven (x / 2 ^ floatGridExp x) : ℚ) * 2 ^ floatGridExp x

/-- Python `int(a / b)` for integers `a ≥ 0`, `b > 0`: correctly
rounded binary64 division followed by truncation toward zero (which,
for a nonnegative result, is the floor). -/
def pyIntFloatDiv (a b : ℤ) : ℤ :=
  ⌊roundB64 ((a : ℚ) / (b : ℚ))⌋

theorem roundHalfEven_intCast (n : ℤ) : roundHalfEven (n : ℚ) = n := by
  unfold roundHalfEven
  rw [Int.floor_intCast]
  norm_num

theorem roundHalfEven_nonneg {y : ℚ} (hy : 0 ≤ y) : 0 ≤ roundHalfEven y := by
  have h0 : (0:ℤ) ≤ ⌊y⌋ := Int.floor_nonneg.mpr hy
  unfold roundHalfEven
  split_ifs <;> omega

theorem roundHalfEven_le (y : ℚ) : (roundHalfEven y : ℚ) ≤ y + 1 / 2 := by
  have h1 : (⌊y⌋ : ℚ) ≤ y := Int.floor_le y
  have h2 : y < ⌊y⌋ + 1 := Int.lt_floor_add_one y
  unfold roundHalfEven
  split_ifs with ha hb hc
  · linarith
  · push_cast
    linarith
  · linarith
  · push_cast
    have := not_lt.mp ha
    linarith

theorem le_roundHalfEven (y : ℚ) : y - 1 / 2 ≤ (roundHalfEven y : ℚ) := by
  have h1 : (⌊y⌋ : ℚ) ≤ y := Int.floor_le y
  have h2 : y < ⌊y⌋ + 1 := Int.lt_floor_add_one y
  unfold roundHalfEven
  split_ifs with ha hb hc
  · linarith
  · push_cast
    linarith
  · have := not_lt.mp ha
    linarith
  · push_cast
    linarith

theorem two_zpow_pos (n : ℤ) : (0:ℚ) < 2 ^ n :=
  zpow_pos (by norm_num) n

theorem roundB64_nonneg {x : ℚ} (hx : 0 ≤ x) : 0 ≤ roundB64 x := by
  unfold roundB64
  exact mul_nonneg
    (by exact_mod_cast roundHalfEven_nonneg (div_nonneg hx (two_zpow_pos _).le))
    (two_zpow_pos _).le

theorem roundB64_le (x : ℚ) : roundB64 x ≤ x + 2 ^ (floatGridExp x - 1) := by
  unfold roundB64
  have hg : (0:ℚ) < 2 ^ floatGridExp x := two_zpow_pos _
  have h := roundHalfEven_le (x / 2 ^ floatGridExp x)
  calc (roundHalfEven (x / 2 ^ floatGridExp x) : ℚ) * 2 ^ floatGridExp x
      ≤ (x / 2 ^ floatGridExp x + 1 / 2) * 2 ^ floatGridExp x :=
        mul_le_mul_of_nonneg_right h hg.le
    _ = x + 2 ^ (floatGridExp x - 1) := by
        rw [add_mul, div_mul_cancel₀ _ hg.ne', zpow_sub₀ (by norm_num : (2:ℚ) ≠ 0)]
        ring

theorem le_roundB64 (x : ℚ) : x - 2 ^ (floatGridExp x - 1) ≤ roundB64 x := by
  unfold roundB64
  have hg : (0:ℚ) < 2 ^ floatGridExp x := two_zpow_pos _
  have h := le_roundHalfEven (x / 2 ^ floatGridExp x)
  calc x - 2 ^ (floatGridExp x - 1)
      = (x / 2 ^ floatGridExp x - 1 / 2) * 2 ^ floatGridExp x := by
        rw [sub_mul, div_mul_cancel₀ _ hg.ne', zpow_sub₀ (by norm_num : (2:ℚ) ≠ 0)]
        ring
    _ ≤ (roundHalfEven (x / 2 ^ floatGridExp x) : ℚ) * 2 ^ floatGridExp x :=
        mul_le_mul_of_nonneg_right h hg.le

/-- Binary64 rounding is exact on integers up to `2 ^ 53`. -/
theorem roundB64_intCast_exact {q : ℤ} (hq : 1 ≤ q) (hL : Int.log 2 (q:ℚ) ≤ 52) :
    roundB64 (q:ℚ) = (q:ℚ) := by
  have hx : (0:ℚ) < (q:ℚ) := by exact_mod_cast lt_of_lt_of_le zero_lt_one hq
  have hx1 : (1:ℚ) ≤ (q:ℚ) := by exact_mod_cast hq
  have hL0 : 0 ≤ Int.log 2 (q:ℚ) := by
    rw [← Int.zpow_le_iff_le_log (by norm_num) hx]
    simpa using hx1
  set L : ℤ := Int.log 2 (q:ℚ) with hLdef
  have hg : floatGridExp (q:ℚ) = L - 52 := max_eq_left (by omega)
  obtain ⟨n, hn⟩ : ∃ n : ℕ, (n:ℤ) = 52 - L := ⟨(52 - L).toNat, Int.toNat_of_nonneg (by omega)⟩
  have h2 : (2:ℚ) ≠ 0 := by norm_num
  have hsum : (n:ℤ) + (L - 52) = 0 := by omega
  have hy : (q:ℚ) / 2 ^ (L - 52) = ((q * 2 ^ n : ℤ) : ℚ) := by
    rw [div_eq_iff (two_zpow_pos _).ne']
    push_cast
    rw [mul_assoc, ← zpow_natCast (2:ℚ) n, ← zpow_add₀ h2, hsum, zpow_zero, mul_one]
  unfold roundB64
  rw [hg, hy, roundHalfEven_intCast]
  push_cast
  rw [mul_assoc, ← zpow_natCast (2:ℚ) n, ← zpow_add₀ h2, hsum, zpow_zero, mul_one]

/-- Half of the normal-range grid spacing at `x` is at most
`x · 2 ^ (-53)`. -/
theorem grid_half_le {x : ℚ} (hx : 0 < x) :
    (2:ℚ) ^ (Int.log 2 x - 52 - 1) ≤ x * (2:ℚ) ^ (-(53:ℤ)) := by
  have hlow : (2:ℚ) ^ Int.log 2 x ≤ x := Int.zpow_log_le_self (by norm_num) hx
  have h : Int.log 2 x - 52 - 1 = Int.log 2 x + (-(53:ℤ)) := by ring
  rw [h, zpow_add₀ (by norm_num : (2:ℚ) ≠ 0)]
  exact mul_le_mul_of_nonneg_right hlow (two_zpow_pos _).le

/-- For `a < 2 ^ 53`, half an ulp of the quotient `a / b` is below the
gap `1 / b` between consecutive multiples of `1 / b`. -/
theorem quotient_half_ulp_lt {a b : ℤ} (ha : 0 < a) (hb : 0 < b) (hlt : a < 2 ^ 53) :
    ((a:ℚ) / (b:ℚ)) * (2:ℚ) ^ (-(53:ℤ)) < 1 / (b:ℚ) := by
  have hbQ : (0:ℚ) < (b:ℚ) := by exact_mod_cast hb
  have hzz : (0:ℚ) < (2:ℚ) ^ (53:ℤ) := two_zpow_pos _
  have ha53 : (a:ℚ) < (2:ℚ) ^ (53:ℤ) := by
    have hpow : (2:ℚ) ^ (53:ℤ) = ((2 ^ 53 : ℤ) : ℚ) := by norm_num
    rw [hpow]
    exact_mod_cast hlt
  have hkey : ((a:ℚ) / (b:ℚ)) * (2:ℚ) ^ (-(53:ℤ)) = (a:ℚ) / ((b:ℚ) * (2:ℚ) ^ (53:ℤ)) := by
    rw [zpow_neg, ← div_eq_mul_inv, div_div]
  rw [hkey, div_lt_div_iff₀ (by positivity) hbQ, one_mul]
  calc (a:ℚ) * (b:ℚ) < (2:ℚ) ^ (53:ℤ) * (b:ℚ) := mul_lt_mul_of_pos_right ha53 hbQ
    _ = (b:ℚ) * (2:ℚ) ^ (53:ℤ) := mul_comm _ _

/-- CPython `int(a / b)` (binary64 division then truncation) agrees
with exact floor division `a // b` whenever the dividend is below
`2 ^ 53`. -/
theorem pyIntFloatDiv_eq_fdiv {a b : ℤ} (ha : 0 < a) (hb : 0 < b) (hlt : a < 2 ^ 53) :
    pyIntFloatDiv a b = a.fdiv b := by
  have haQ : (0:ℚ) < (a:ℚ) := by exact_mod_cast ha
  have hbQ : (0:ℚ) < (b:ℚ) := by exact_mod_cast hb
  set x : ℚ := (a:ℚ) / (b:ℚ) with hxdef
  set q : ℤ := a.fdiv b with hqdef
  set s : ℤ := a.fmod b with hsdef
  show ⌊roundB64 x⌋ = q
  have hqs : b * q + s = a := Int.fdiv_add_fmod a b
  have hs0 : 0 ≤ s := Int.fmod_nonneg' a hb
  have hsb : s < b := Int.fmod_lt_of_pos a hb
  have hq0 : 0 ≤ q := Int.fdiv_nonneg ha.le hb.le
  clear_value x q s
  have hx : 0 < x := hxdef ▸ div_pos haQ hbQ
  have hxqs : x = (q:ℚ) + (s:ℚ) / (b:ℚ) := by
    rw [hxdef]
    field_simp
    push_cast [← hqs]
    ring
  by_cases hscase : s = 0
  case pos =>
    have hab : a = b * q := by omega
    have hq1 : 1 ≤ q := by
      by_contra hcon
      push_neg at hcon
      have hqz : q = 0 := by omega
      rw [hqz, mul_zero] at hab
      omega
    have hxq : x = (q:ℚ) := by
      rw [hxqs, hscase]
      push_cast
      ring
    have hL53 : Int.log 2 x ≤ 52 := by
      have hxlt : x < (2:ℚ) ^ (53:ℤ) := by
        have h1 : x ≤ (a:ℚ) := by
          rw [hxdef]
          exact div_le_self haQ.le (by exact_mod_cast hb)
        have hpow : (2:ℚ) ^ (53:ℤ) = ((2 ^ 53 : ℤ) : ℚ) := by norm_num
        have h2 : (a:ℚ) < (2:ℚ) ^ (53:ℤ) := by
          rw [hpow]
          exact_mod_cast hlt
        linarith
      have hlog : Int.log 2 x < 53 := (Int.lt_zpow_iff_log_lt (by norm_num) hx).mp hxlt
      omega
    have hres : roundB64 x = x := by
      rw [hxq]
      exact roundB64_intCast_exact hq1 (hxq ▸ hL53)
    rw [hres, hxq, Int.floor_intCast]
  case neg =>
    have hs1 : 1 ≤ s := by omega
    have hsQ : (1:ℚ) ≤ (s:ℚ) := by exact_mod_cast hs1
    have hsbQ : (s:ℚ) + 1 ≤ (b:ℚ) := by exact_mod_cast (by omega : s + 1 ≤ b)
    have hulp : x * (2:ℚ) ^ (-(53:ℤ)) < 1 / (b:ℚ) := by
      rw [hxdef]
      exact quotient_half_ulp_lt ha hb hlt
    by_cases hqcase : q = 0
    case pos =>
      have hxlt1 : x ≤ 1 - 1 / (b:ℚ) := by
        rw [hxqs, hqcase]
        push_cast
        rw [zero_add, div_le_iff₀ hbQ, sub_mul, one_mul, div_mul_cancel₀ _ hbQ.ne']
        linarith
      have hup : roundB64 x < 1 := by
        rcases le_or_lt (-1074) (Int.log 2 x - 52) with hcase | hcase
        · have hgeq : floatGridExp x = Int.log 2 x - 52 := max_eq_left hcase
          have h3 : roundB64 x ≤ x + 2 ^ (floatGridExp x - 1) := roundB64_le x
          have h4 : (2:ℚ) ^ (floatGridExp x - 1) ≤ x * (2:ℚ) ^ (-(53:ℤ)) := by
            rw [hgeq]
            exact grid_half_le hx
          calc roundB64 x ≤ x + 2 ^ (floatGridExp x - 1) := h3
            _ ≤ x + x * (2:ℚ) ^ (-(53:ℤ)) := add_le_add_left h4 x
            _ < x + 1 / (b:ℚ) := add_lt_add_left hulp x
            _ ≤ (1 - 1 / (b:ℚ)) + 1 / (b:ℚ) := add_le_add_right hxlt1 _
            _ = 1 := by ring
        · have hgeq : floatGridExp x = -1074 := max_eq_right hcase.le
          have hxup : x < (2:ℚ) ^ (Int.log 2 x + 1) := Int.lt_zpow_succ_log_self (by norm_num) x
          have h1 : x < (2:ℚ) ^ (-(2:ℤ)) :=
            lt_of_lt_of_le hxup (zpow_le_zpow_right₀ (by norm_num) (by omega))
          have h2 : (2:ℚ) ^ (floatGridExp x - 1) ≤ (2:ℚ) ^ (-(2:ℤ)) := by
            rw [hgeq]
            exact zpow_le_zpow_right₀ (by norm_num) (by norm_num)
          have h3 : roundB64 x ≤ x + 2 ^ (floatGridExp x - 1) := roundB64_le x
          have h4 : (2:ℚ) ^ (-(2:ℤ)) = 1 / 4 := by
            rw [zpow_neg]
            norm_num
          calc roundB64 x ≤ x + 2 ^ (floatGridExp x - 1) := h3
            _ < (2:ℚ) ^ (-(2:ℤ)) + (2:ℚ) ^ (-(2:ℤ)) := add_lt_add_of_lt_of_le h1 h2
            _ = 1 / 2 := by rw [h4]; norm_num
            _ < 1 := by norm_num
      have hlo : (0:ℚ) ≤ roundB64 x := roundB64_nonneg hx.le
      rw [hqcase, Int.floor_eq_iff]
      constructor
      · simpa using hlo
      · simpa using hup
    case neg =>
      have hq1 : 1 ≤ q := by omega
      have hqQ : (1:ℚ) ≤ (q:ℚ) := by exact_mod_cast hq1
      have hsdiv : 0 ≤ (s:ℚ) / (b:ℚ) := div_nonneg (by exact_mod_cast hs0) hbQ.le
      have hx1 : (1:ℚ) ≤ x := by
        rw [hxqs]
        linarith
      have hL0 : 0 ≤ Int.log 2 x := by
        rw [← Int.zpow_le_iff_le_log (by norm_num) hx]
        simpa using hx1
      have hgeq : floatGridExp x = Int.log 2 x - 52 := max_eq_left (by omega)
      have hhalf : (2:ℚ) ^ (floatGridExp x - 1) < 1 / (b:ℚ) := by
        rw [hgeq]
        exact lt_of_le_of_lt (grid_half_le hx) hulp
      have hupb : roundB64 x ≤ x + 2 ^ (floatGridExp x - 1) := roundB64_le x
      have hlob : x - 2 ^ (floatGridExp x - 1) ≤ roundB64 x := le_roundB64 x
      have hsl : 1 / (b:ℚ) ≤ (s:ℚ) / (b:ℚ) := (div_le_div_right hbQ).mpr hsQ
      have hsum1 : (s:ℚ) / (b:ℚ) + 1 / (b:ℚ) ≤ 1 := by
        rw [div_add_div_same]
        exact (div_le_one hbQ).mpr hsbQ
      rw [Int.floor_eq_iff]
      constructor
      · have hql : (q:ℚ) ≤ x - 1 / (b:ℚ) := by
          rw [hxqs]
          linarith
        linarith
      · have hqu : x + 1 / (b:ℚ) ≤ (q:ℚ) + 1 := by
          rw [hxqs]
          linarith
        linarith

/-- C7 (counterexample): the float-computed clamp does *not* equal the
exact integer floor for all valid configurations.  At
`max_burst = 530000000004`, `fill_rpm = 7` the exact quotient
`31800000000240000 / 7 = 4542857142891428 + 4/7` lies in
`[2^52, 2^53)` where the binary64 grid spacing is `1`, so the division
rounds *up* to `4542857142891429` and `int` truncation returns one more
than the exact floor. -/
theorem C7_clip_float_counterexample :
    pyIntFloatDiv (PRECISION_FACTOR * 530000000004) 7
      ≠ (PRECISION_FACTOR * 530000000004).fdiv 7 := by
  have hval : PRECISION_FACTOR * 530000000004 = (31800000000240000 : ℤ) := by
    norm_num [PRECISION_FACTOR]
  rw [hval]
  have hXcast : ((31800000000240000 : ℤ) : ℚ) / ((7 : ℤ) : ℚ)
      = (31800000000240000 : ℚ) / 7 := by norm_num
  unfold pyIntFloatDiv
  rw [hXcast]
  set X : ℚ := (31800000000240000 : ℚ) / 7 with hXdef
  have hfloorInt : ⌊X⌋ = 4542857142891428 := by
    rw [hXdef, Int.floor_eq_iff]
    constructor
    · norm_num
    · norm_num
  have hfloorNat : ⌊X⌋₊ = 4542857142891428 := by
    rw [hXdef, Nat.floor_eq_iff (by positivity)]
    constructor
    · norm_num
    · norm_num
  have h1X : (1:ℚ) ≤ X := by
    rw [hXdef]
    norm_num
  have hnatlog : Nat.log 2 4542857142891428 = 52 :=
    Nat.log_eq_of_pow_le_of_lt_pow (by norm_num) (by norm_num)
  have hlog : Int.log 2 X = 52 := by
    rw [Int.log_of_one_le_right 2 h1X, hfloorNat, hnatlog]
    norm_num
  have hgrid : floatGridExp X = 0 := by
    unfold floatGridExp
    rw [hlog]
    norm_num
  have hfrac : X - ((4542857142891428 : ℤ) : ℚ) = 4 / 7 := by
    rw [hXdef]
    norm_num
  have hrhe : roundHalfEven X = 4542857142891429 := by
    unfold roundHalfEven
    rw [hfloorInt, hfrac]
    norm_num
  have hround : roundB64 X = ((4542857142891429 : ℤ) : ℚ) := by
    unfold roundB64
    rw [hgrid, zpow_zero, div_one, mul_one, hrhe]
  rw [hround, Int.floor_intCast]
  decide

/-- C7 (amended): the float-computed clamp
`int(PRECISION_FACTOR * max_burst / fill_rpm)` equals the exact floor
division embedded in `clip_to_max_milliseconds` whenever
`PRECISION_FACTOR * max_burst < 2 ^ 53` (i.e. for every
`max_burst ≤ 150119987579016`); the counterexample above shows the
equality fails beyond that range. -/
theorem C7_clip_float_amended (c : Capacity) (hmb : 0 < c.max_burst)
    (hfr : 0 < c.fill_rpm) (hsize : PRECISION_FACTOR * c.max_burst < 2 ^ 53) (ms : ℤ) :
    c.clip_to_max_milliseconds ms
      = min ms (pyIntFloatDiv (PRECISION_FACTOR * c.max_burst) c.fill_rpm) := by
  unfold Capacity.clip_to_max_milliseconds
  rw [if_neg hfr.ne']
  rw [pyIntFloatDiv_eq_fdiv
    (mul_pos (by norm_num [PRECISION_FACTOR]) hmb) hfr hsize]

/-- C7 (witness): the amended theorem at `max_burst = 5`,
`fill_rpm = 60`, where the clamp is `5000` ms. -/
theorem C7_clip_float_amended_witness :
    (⟨5, 60, 300000⟩ : Capacity).clip_to_max_milliseconds 123
        = min 123 (pyIntFloatDiv (PRECISION_FACTOR * 5) 60) ∧
      (⟨5, 60, 300000⟩ : Capacity).clip_to_max_milliseconds 123 = 123 := by
  have h := C7_clip_float_amended ⟨5, 60, 300000⟩ (by decide) (by decide) (by decide) 123
  refine ⟨h, ?_⟩
  decide
